import Mathlib

set_option maxRecDepth 100000

/-!
# Verification of pyNCMDUMP (`ncm_converter.py`)

A shallow embedding of the NCM container converter, faithful to the Python
source.  Bytes are `Nat`s (kept below 256 by the operations themselves),
byte strings are `List Nat`.  External collaborators (the AES-ECB primitive
from the `cryptography` library, base64, UTF-8 decoding, JSON parsing) are
parameters of the model; everything else is translated from the source.
-/

namespace NCM

/-- Byte strings, as in Python `bytes` / `bytearray`. -/
abbrev Bytes := List Nat

/-- `core_key = binascii.a2b_hex('687A4852416D736F356B496E62617857')`
(line 117 of `ncm_converter.py`). -/
def coreKey : Bytes :=
  [0x68, 0x7A, 0x48, 0x52, 0x41, 0x6D, 0x73, 0x6F,
   0x35, 0x6B, 0x49, 0x6E, 0x62, 0x61, 0x78, 0x57]

/-- `meta_key = binascii.a2b_hex('2331346C6A6B5F215C5D2630553C2728')`
(line 118). -/
def metaKey : Bytes :=
  [0x23, 0x31, 0x34, 0x6C, 0x6A, 0x6B, 0x5F, 0x21,
   0x5C, 0x5D, 0x26, 0x30, 0x55, 0x3C, 0x27, 0x28]

/-- The magic header `b'CTENFDAM'`: line 124 asserts
`binascii.b2a_hex(header) == b'4354454e4644414d'`, which holds iff the 8
header bytes equal this constant. -/
def magicBytes : Bytes := [0x43, 0x54, 0x45, 0x4E, 0x46, 0x44, 0x41, 0x4D]

/-- `unpad = lambda s: s[0:-(s[-1] if isinstance(s[-1], int) else ord(s[-1]))]`
(line 119).  On `bytes`, `s[-1]` is an `int`; on empty input Python raises
`IndexError`, modelled by `none`.  Python slice semantics: `s[0:-p]` is empty
when `p = 0` (the slice `s[0:0]`) and also when `p ≥ len(s)` (negative stop
clamps to 0); otherwise it is the first `len(s) - p` bytes. -/
def unpad (s : Bytes) : Option Bytes :=
  match s.getLast? with
  | none => none
  | some p => some (if p = 0 then [] else s.take (s.length - p))

/-- One iteration of the key-box loop (lines 142-150):
`swap = key_box[i]; c = (swap + last_byte + key_data[key_offset]) & 0xff;`
advance `key_offset` cyclically; `key_box[i] = key_box[c]; key_box[c] = swap;
last_byte = c`.  Indexing an empty key raises `IndexError`, modelled by
`none`.  State is `(key_box, last_byte, key_offset)`. -/
def keyBoxStep (key : Bytes) : Bytes × Nat × Nat → Nat → Option (Bytes × Nat × Nat)
  | (box, lastByte, keyOffset), i =>
    match key.get? keyOffset with
    | none => none
    | some kb =>
      let swap := box.getD i 0
      let c := (swap + lastByte + kb) &&& 0xff
      let keyOffset2 := if keyOffset + 1 ≥ key.length then 0 else keyOffset + 1
      let box2 := (box.set i (box.getD c 0)).set c swap
      some (box2, c, keyOffset2)

/-- The key-box derivation (lines 137-150): `key_box = bytearray(range(256))`
followed by the loop `for i in range(256)`. -/
def deriveKeyBox (key : Bytes) : Option Bytes :=
  ((List.range 256).foldlM (keyBoxStep key) ((List.range 256), 0, 0)).map
    (fun st => st.1)

/-- The XOR mask applied at 1-based position `i` of a chunk (line 181):
`key_box[(key_box[j] + key_box[(key_box[j] + j) & 0xff]) & 0xff]` with
`j = i & 0xff`. -/
def maskAt (box : Bytes) (i : Nat) : Nat :=
  let j := i &&& 0xff
  box.getD ((box.getD j 0 + box.getD ((box.getD j 0 + j) &&& 0xff) 0) &&& 0xff) 0

/-- One iteration of the per-chunk decode loop (lines 179-181):
`chunk[i - 1] ^= key_box[...]`. -/
def decodeByteStep (box : Bytes) (ch : Bytes) (i : Nat) : Bytes :=
  ch.set (i - 1) ((ch.getD (i - 1) 0) ^^^ maskAt box i)

/-- Decoding of one chunk: `for i in range(1, chunk_length + 1): ...`
(lines 179-181), an in-place update of the chunk buffer. -/
def decodeChunk (box : Bytes) (chunk : Bytes) : Bytes :=
  (List.range' 1 chunk.length).foldl (decodeByteStep box) chunk

/-- The streaming decode loop (lines 172-182): repeatedly read up to `cs`
bytes (`f.read(0x8000)` in the source, where `cs = 0x8000`), stop on an
empty read, decode each chunk independently, and concatenate the results.
`fuel` is a structural-termination bound; every positive chunk size consumes
at least one byte per round, so any `fuel ≥ data.length` gives the loop's
behaviour (see `decodeStream`). -/
def decodeStreamAux (box : Bytes) (cs : Nat) : Nat → Bytes → Bytes
  | 0, _ => []
  | _ + 1, [] => []
  | fuel + 1, b :: rest =>
    decodeChunk box ((b :: rest).take cs) ++
      decodeStreamAux box cs fuel ((b :: rest).drop cs)

/-- The streaming decode of the whole remaining payload. -/
def decodeStream (box : Bytes) (cs : Nat) (data : Bytes) : Bytes :=
  decodeStreamAux box cs data.length data

/-! ## The file reader

Models a Python binary file object open for reading: `read(n)` returns *up
to* `n` bytes (fewer at end of file, `b''` at EOF, with no error), and
`seek(n, 1)` advances the cursor. -/

/-- A readable byte source: the file contents plus the cursor. -/
structure Reader where
  data : Bytes
  pos : Nat
  deriving DecidableEq, Repr

/-- `f.read(n)`: returns `min n remaining` bytes and advances the cursor by
that amount. -/
def rread (r : Reader) (n : Nat) : Bytes × Reader :=
  let out := (r.data.drop r.pos).take n
  (out, ⟨r.data, r.pos + out.length⟩)

/-- `f.seek(n, 1)`: relative seek. -/
def rseek (r : Reader) (n : Nat) : Reader := ⟨r.data, r.pos + n⟩

/-! ## Errors and external collaborators -/

/-- The Python exceptions the conversion of one file can raise.  The code
defines no error taxonomy of its own; these constructors name the built-in
exceptions raised at the corresponding source lines. -/
inductive Err where
  /-- `AssertionError` from the magic check `assert binascii.b2a_hex(header)
  == b'4354454e4644414d'` (line 124). -/
  | assertFailed
  /-- `struct.error` from `struct.unpack('<I', ...)` on a buffer that is not
  exactly 4 bytes (lines 127, 153, 165, 168). -/
  | structError
  /-- `IndexError` from `s[-1]` in `unpad` on an empty buffer, or from
  `key_data[key_offset]` when the raw key is empty (lines 119, 144). -/
  | indexError
  /-- an error raised inside the AES library calls (lines 133-134, 160-161). -/
  | aesError
  /-- an error raised by `base64.b64decode` (line 159). -/
  | b64Error
  /-- `UnicodeDecodeError` from `.decode('utf-8')` (line 161). -/
  | unicodeError
  /-- an error from `json.loads` or the `['format']` lookup (lines 162, 170). -/
  | jsonError
  deriving DecidableEq, Repr

/-- The external collaborators used by the converter: AES-ECB decryption
from the `cryptography` library, `base64.b64decode`, `bytes.decode('utf-8')`
and the `json.loads(...)['format']` lookup.  They are parameters of the
model; `none` models a raised exception. -/
structure Ext where
  aesDecrypt : Bytes → Bytes → Option Bytes
  b64decode : Bytes → Option Bytes
  utf8decode : Bytes → Option (List Nat)
  jsonFormat : List Nat → Option (List Nat)

/-- `struct.unpack('<I', bytes(b))[0]` (little-endian `u32`); raises
`struct.error` unless the buffer is exactly 4 bytes. -/
def parseU32 (bs : Bytes) : Except Err Nat :=
  if bs.length = 4 then
    .ok (bs.getD 0 0 + 0x100 * bs.getD 1 0 + 0x10000 * bs.getD 2 0 +
         0x1000000 * bs.getD 3 0)
  else .error .structError

/-- Unwrapping of the key block (lines 130-134): XOR every byte with `0x64`,
AES-ECB-decrypt with `core_key`, `unpad`, then drop the first 17 bytes. -/
def unwrapKeyBlock (ext : Ext) (keyData : Bytes) : Except Err Bytes :=
  match ext.aesDecrypt coreKey (keyData.map (fun b => b ^^^ 0x64)) with
  | none => .error .aesError
  | some dec =>
    match unpad dec with
    | none => .error .indexError
    | some unp => .ok (unp.drop 17)

/-- Unwrapping of the metadata block (lines 155-162): XOR with `0x63`, drop
22 bytes, base64-decode, AES-ECB-decrypt with `meta_key`, `unpad`, UTF-8
decode, drop 6 characters, `json.loads`, and read the `format` field. -/
def unwrapMetaBlock (ext : Ext) (metaData : Bytes) : Except Err (List Nat) :=
  match ext.b64decode ((metaData.map (fun b => b ^^^ 0x63)).drop 22) with
  | none => .error .b64Error
  | some md =>
    match ext.aesDecrypt metaKey md with
    | none => .error .aesError
    | some dec =>
      match unpad dec with
      | none => .error .indexError
      | some unp =>
        match ext.utf8decode unp with
        | none => .error .unicodeError
        | some s =>
          match ext.jsonFormat (s.drop 6) with
          | none => .error .jsonError
          | some fmt => .ok fmt

/-- What one successful conversion produces before the output is written:
the metadata format tag, the cover image bytes, the decoded audio bytes. -/
structure DumpResult where
  fmt : List Nat
  image : Bytes
  audio : Bytes
  deriving DecidableEq, Repr

/-- The per-file conversion pipeline of `dump_single_file` (lines 120-184),
from `open(filepath)` to the decoded audio: magic assertion, 2-byte gap,
key block, key box, metadata block, checksum, 5-byte gap, cover image, and
the chunked audio decode.  The only `except` clause in the source catches
`KeyboardInterrupt`; every error modelled here propagates to the caller. -/
def dumpSingleFile (ext : Ext) (file : Bytes) : Except Err DumpResult := do
  let r : Reader := ⟨file, 0⟩
  let (header, r) := rread r 8
  if header = magicBytes then do
    let r := rseek r 2
    let (keyLenB, r) := rread r 4
    let keyLen ← parseU32 keyLenB
    let (keyData, r) := rread r keyLen
    let rawKey ← unwrapKeyBlock ext keyData
    let box ← match deriveKeyBox rawKey with
      | none => Except.error Err.indexError
      | some b => pure b
    let (metaLenB, r) := rread r 4
    let metaLen ← parseU32 metaLenB
    let (metaData, r) := rread r metaLen
    let fmt ← unwrapMetaBlock ext metaData
    let (crcB, r) := rread r 4
    let _crc ← parseU32 crcB
    let r := rseek r 5
    let (imgLenB, r) := rread r 4
    let imgLen ← parseU32 imgLenB
    let (imageData, r) := rread r imgLen
    let audio := decodeStream box 0x8000 (r.data.drop r.pos)
    return ⟨fmt, imageData, audio⟩
  else throw .assertFailed

/-- The single-worker batch loop of `dump` (lines 230-233): convert each
file in order.  Nothing in the loop catches exceptions, so an error raised
by one file's conversion propagates and ends the batch, which `Except`'s
short-circuiting `mapM` models. -/
def processFiles (ext : Ext) (files : List Bytes) : Except Err (List DumpResult) :=
  files.mapM (dumpSingleFile ext)

/-! ## The muxer bridge, as an event trace

`merge_audio_with_cover` (lines 77-95) and its helpers are straight-line
code on one thread; the model records the observable actions in order. -/

/-- `DEFAULT_CHUNK_SIZE = 65536` (line 46). -/
def defaultChunkSize : Nat := 65536

/-- The observable actions of `merge_audio_with_cover`.  Channel 0 is the
image pipe, channel 1 the audio pipe. -/
inductive MuxEvent where
  /-- `win32pipe.CreateNamedPipe` via `create_pipe` (lines 84-85). -/
  | createPipe (ch : Nat)
  /-- `subprocess.Popen(cmd)` (line 87). -/
  | launchProc
  /-- `win32pipe.ConnectNamedPipe` (line 70). -/
  | connectPipe (ch : Nat)
  /-- one `win32file.WriteFile` of up to `DEFAULT_CHUNK_SIZE` bytes (line 73). -/
  | writePipe (ch : Nat) (chunk : Bytes)
  /-- `win32file.CloseHandle` (lines 74, 93, 95). -/
  | closeHandle (ch : Nat)
  /-- `proc.wait()` (line 90). -/
  | waitProc
  deriving DecidableEq, Repr

/-- Splitting a blob into write-sized chunks, as the loop
`for i in range(0, len(data), DEFAULT_CHUNK_SIZE)` does (line 72).  `fuel`
is a structural-termination bound, instantiated with `data.length` in
`chunksOf`. -/
def chunksOfAux (cs : Nat) : Nat → Bytes → List Bytes
  | 0, _ => []
  | _ + 1, [] => []
  | fuel + 1, b :: rest => (b :: rest).take cs :: chunksOfAux cs fuel ((b :: rest).drop cs)

/-- The chunks written for one blob. -/
def chunksOf (cs : Nat) (data : Bytes) : List Bytes :=
  chunksOfAux cs data.length data

/-- `connect_and_write_pipe(pipe_fd, data)` (lines 69-74): connect, write
the blob in `DEFAULT_CHUNK_SIZE` pieces, close the handle. -/
def connectAndWritePipe (ch : Nat) (data : Bytes) : List MuxEvent :=
  MuxEvent.connectPipe ch ::
    ((chunksOf defaultChunkSize data).map (fun c => MuxEvent.writePipe ch c) ++
      [MuxEvent.closeHandle ch])

/-- The event trace of `merge_audio_with_cover(ffmpeg_path, blob_audio,
blob_cover_img, output_file)` on the success path (lines 77-95): create the
two pipes, launch ffmpeg, connect-and-write the image pipe, then
connect-and-write the audio pipe, then wait for the process; the `finally`
block closes both handles again. -/
def mergeAudioWithCover (blobAudio blobCoverImg : Bytes) : List MuxEvent :=
  [MuxEvent.createPipe 0, MuxEvent.createPipe 1, MuxEvent.launchProc] ++
    connectAndWritePipe 0 blobCoverImg ++
    connectAndWritePipe 1 blobAudio ++
    [MuxEvent.waitProc, MuxEvent.closeHandle 0, MuxEvent.closeHandle 1]

/-! ## Concrete test fixtures

A concrete instantiation of the external collaborators and a few concrete
containers, used by witnesses and counterexamples. -/

/-- External collaborators where AES, base64 and UTF-8 decoding are the
identity on byte strings and every metadata parse yields format `mp3`
(bytes `[0x6D, 0x70, 0x33]`). -/
def extXor : Ext :=
  ⟨fun _ d => some d, fun d => some d, fun d => some d,
   fun _ => some [0x6D, 0x70, 0x33]⟩

/-- A 20-byte AES plaintext for the key block: `unpad` strips the trailing
2 bytes, dropping 17 more leaves the raw key `[1]`. -/
def goodKeyDec : Bytes := List.replicate 17 0 ++ [1, 99, 2]

/-- A container that `dumpSingleFile extXor` converts successfully:
magic, 2-byte gap, 20-byte key block, 29-byte metadata block, checksum,
5-byte gap, a 10-byte cover image, and a 2-byte audio payload. -/
def goodFile : Bytes :=
  magicBytes ++ [0, 0] ++ [20, 0, 0, 0] ++ goodKeyDec.map (fun b => b ^^^ 0x64) ++
    [29, 0, 0, 0] ++
    (List.replicate 22 0 ++ ([1, 2, 3, 4, 5, 6, 1].map (fun b => b ^^^ 0x63))) ++
    [0, 0, 0, 0] ++ [0, 0, 0, 0, 0] ++ [10, 0, 0, 0] ++ List.replicate 10 7 ++
    [0xAA, 0xBB]

/-- A file whose first 8 bytes are not the magic constant. -/
def badFile : Bytes := [0, 1, 2, 3, 4, 5, 6, 7, 8, 9]

/-- Like `goodFile`, but the cover-image length field declares 100 bytes
while only 3 bytes remain in the file. -/
def truncFile : Bytes :=
  magicBytes ++ [0, 0] ++ [20, 0, 0, 0] ++ goodKeyDec.map (fun b => b ^^^ 0x64) ++
    [29, 0, 0, 0] ++
    (List.replicate 22 0 ++ ([1, 2, 3, 4, 5, 6, 1].map (fun b => b ^^^ 0x63))) ++
    [0, 0, 0, 0] ++ [0, 0, 0, 0, 0] ++ [100, 0, 0, 0] ++ [9, 9, 9]

/-- A container that ends in the middle of the key-length field: after the
magic and the 2-byte gap only 2 of the 4 length bytes remain. -/
def shortLenFile : Bytes := magicBytes ++ [0, 0] ++ [20, 0]

/-! ## Helper lemmas about the chunk decoder -/

theorem length_foldl_decode (box : Bytes) (l : List Nat) (ch : Bytes) :
    (l.foldl (decodeByteStep box) ch).length = ch.length := by
  induction l generalizing ch with
  | nil => rfl
  | cons i t ih =>
    rw [List.foldl_cons, ih]
    simp [decodeByteStep]

theorem decodeChunk_length (box chunk : Bytes) :
    (decodeChunk box chunk).length = chunk.length :=
  length_foldl_decode box _ chunk

theorem decodeByteStep_getElem? (box ch : Bytes) (i idx : Nat) :
    (decodeByteStep box ch i)[idx]? =
      if idx = i - 1 then (ch[idx]?).map (fun b => b ^^^ maskAt box i)
      else ch[idx]? := by
  unfold decodeByteStep
  by_cases h : idx = i - 1
  · subst h
    rw [if_pos rfl]
    by_cases hlen : i - 1 < ch.length
    · rw [List.getElem?_set_self hlen, List.getElem?_eq_getElem hlen,
        Option.map_some', List.getD_eq_getElem?_getD,
        List.getElem?_eq_getElem hlen, Option.getD_some]
    · rw [List.set_eq_of_length_le (by omega), List.getElem?_eq_none (by omega),
        Option.map_none']
  · rw [if_neg h, List.getElem?_set_ne (fun hh => h hh.symm)]

theorem foldl_decode_getElem? (box : Bytes) (m : Nat) :
    ∀ (s : Nat) (ch : Bytes) (idx : Nat), 1 ≤ s →
      ((List.range' s m).foldl (decodeByteStep box) ch)[idx]? =
        if s ≤ idx + 1 ∧ idx + 1 < s + m then
          (ch[idx]?).map (fun b => b ^^^ maskAt box (idx + 1))
        else ch[idx]? := by
  induction m with
  | zero =>
    intro s ch idx _
    rw [if_neg (by omega)]
    rfl
  | succ m ih =>
    intro s ch idx hs
    rw [List.range'_succ, List.foldl_cons,
      ih (s + 1) (decodeByteStep box ch s) idx (by omega),
      decodeByteStep_getElem? box ch s idx]
    by_cases hidx : idx = s - 1
    · have hi1 : idx + 1 = s := by omega
      simp only [if_pos hidx]
      rw [if_neg (show ¬(s + 1 ≤ idx + 1 ∧ idx + 1 < s + 1 + m) from by omega),
        if_pos (show s ≤ idx + 1 ∧ idx + 1 < s + (m + 1) from by omega), hi1]
    · simp only [if_neg hidx]
      by_cases hc : s + 1 ≤ idx + 1 ∧ idx + 1 < s + 1 + m
      · rw [if_pos hc,
          if_pos (show s ≤ idx + 1 ∧ idx + 1 < s + (m + 1) from by omega)]
      · rw [if_neg hc,
          if_neg (show ¬(s ≤ idx + 1 ∧ idx + 1 < s + (m + 1)) from by omega)]

theorem decodeChunk_getElem? (box chunk : Bytes) (idx : Nat)
    (h : idx < chunk.length) :
    (decodeChunk box chunk)[idx]? =
      (chunk[idx]?).map (fun b => b ^^^ maskAt box (idx + 1)) := by
  unfold decodeChunk
  rw [foldl_decode_getElem? box chunk.length 1 chunk idx (le_refl 1),
    if_pos ⟨by omega, by omega⟩]

theorem decodeChunk_getD (box chunk : Bytes) (idx : Nat)
    (h : idx < chunk.length) :
    (decodeChunk box chunk).getD idx 0 =
      chunk.getD idx 0 ^^^ maskAt box (idx + 1) := by
  rw [List.getD_eq_getElem?_getD, List.getD_eq_getElem?_getD,
    decodeChunk_getElem? box chunk idx h, List.getElem?_eq_getElem h]
  rfl

theorem decodeStreamAux_getElem? (box : Bytes) (cs : Nat) (hcs : 0 < cs) :
    ∀ (fuel : Nat) (data : Bytes), data.length ≤ fuel → ∀ (n : Nat),
      n < data.length →
      (decodeStreamAux box cs fuel data)[n]? =
        (data[n]?).map (fun b => b ^^^ maskAt box (n % cs + 1)) := by
  intro fuel
  induction fuel with
  | zero =>
    intro data hle n hn
    omega
  | succ N ih =>
    intro data hle n hn
    match data with
    | [] => simp at hn
    | b :: rest =>
      rw [decodeStreamAux]
      have hlen1 : (decodeChunk box ((b :: rest).take cs)).length =
          ((b :: rest).take cs).length := decodeChunk_length box _
      by_cases hn' : n < cs
      · have htl : n < ((b :: rest).take cs).length := by
          rw [List.length_take]
          exact lt_min hn' hn
        rw [List.getElem?_append, if_pos (by rw [hlen1]; exact htl),
          decodeChunk_getElem? box _ n htl, List.getElem?_take, if_pos hn',
          Nat.mod_eq_of_lt hn']
      · push_neg at hn'
        have hcslen : cs ≤ (b :: rest).length := le_trans hn' (le_of_lt hn)
        have hfst : (decodeChunk box ((b :: rest).take cs)).length = cs := by
          rw [hlen1, List.length_take]
          omega
        rw [List.getElem?_append, if_neg (by rw [hfst]; omega), hfst]
        have hrec := ih ((b :: rest).drop cs)
          (by rw [List.length_drop]; simp at hle ⊢; omega) (n - cs)
          (by rw [List.length_drop]; omega)
        rw [hrec, List.getElem?_drop, show cs + (n - cs) = n from by omega,
          show (n - cs) % cs = n % cs from by
            conv_rhs => rw [show n = (n - cs) + cs from by omega]
            rw [Nat.add_mod_right]]

theorem decodeStream_getElem? (box : Bytes) (cs : Nat) (data : Bytes) (n : Nat)
    (hcs : 0 < cs) (hn : n < data.length) :
    (decodeStream box cs data)[n]? =
      (data[n]?).map (fun b => b ^^^ maskAt box (n % cs + 1)) :=
  decodeStreamAux_getElem? box cs hcs data.length data (le_refl _) n hn

theorem decodeStream_getD (box : Bytes) (cs : Nat) (data : Bytes) (n : Nat)
    (hcs : 0 < cs) (hn : n < data.length) :
    (decodeStream box cs data).getD n 0 =
      data.getD n 0 ^^^ maskAt box (n % cs + 1) := by
  rw [List.getD_eq_getElem?_getD, List.getD_eq_getElem?_getD,
    decodeStream_getElem? box cs data n hcs hn, List.getElem?_eq_getElem hn]
  rfl

theorem and_255_eq_mod (n : Nat) : n &&& 0xff = n % 256 := by
  have h := Nat.and_pow_two_sub_one_eq_mod n 8
  norm_num at h
  exact h

theorem maskAt_add_256 (box : Bytes) (i : Nat) :
    maskAt box (i + 256) = maskAt box i := by
  unfold maskAt
  rw [show (i + 256) &&& 0xff = i &&& 0xff from by
    rw [and_255_eq_mod, and_255_eq_mod, Nat.add_mod_right]]

/-! ## Helper lemmas about the key-box derivation -/

theorem getD_cons_set_perm :
    ∀ (t : List Nat) (m a : Nat), m < t.length →
      (t.getD m 0 :: t.set m a).Perm (a :: t) := by
  intro t
  induction t with
  | nil =>
    intro m a h
    simp at h
  | cons b u ih =>
    intro m a h
    match m with
    | 0 => simpa using List.Perm.swap a b u
    | m + 1 =>
      have h1 : (u.getD m 0 :: b :: u.set m a).Perm (b :: u.getD m 0 :: u.set m a) :=
        List.Perm.swap b (u.getD m 0) (u.set m a)
      have h2 : (b :: u.getD m 0 :: u.set m a).Perm (b :: a :: u) :=
        (ih m a (by simpa using h)).cons b
      have h3 : (b :: a :: u).Perm (a :: b :: u) := List.Perm.swap a b u
      exact (h1.trans h2).trans h3

theorem set_set_perm :
    ∀ (l : List Nat) (i c : Nat), i < l.length → c < l.length →
      ((l.set i (l.getD c 0)).set c (l.getD i 0)).Perm l := by
  intro l
  induction l with
  | nil =>
    intro i c hi _
    simp at hi
  | cons a t ih =>
    intro i c hi hc
    match i, c with
    | 0, 0 => simp
    | 0, c + 1 => simpa using getD_cons_set_perm t c a (by simpa using hc)
    | i + 1, 0 => simpa using getD_cons_set_perm t i a (by simpa using hi)
    | i + 1, c + 1 =>
      simpa using (ih i c (by simpa using hi) (by simpa using hc)).cons a

theorem keyBox_foldlM_perm (key : Bytes) :
    ∀ (l : List Nat) (st st' : Bytes × Nat × Nat),
      (∀ i ∈ l, i < 256) → st.1.Perm (List.range 256) →
      l.foldlM (keyBoxStep key) st = some st' →
      st'.1.Perm (List.range 256) := by
  intro l
  induction l with
  | nil =>
    intro st st' _ hp h
    rw [List.foldlM_nil] at h
    cases h
    exact hp
  | cons i t ih =>
    intro st st' hmem hp h
    rw [List.foldlM_cons] at h
    obtain ⟨box, lastByte, keyOffset⟩ := st
    match hkb : key.get? keyOffset with
    | none =>
      rw [show keyBoxStep key (box, lastByte, keyOffset) i = none from by
        simp only [keyBoxStep, hkb]] at h
      simp at h
    | some kb =>
      rw [show keyBoxStep key (box, lastByte, keyOffset) i =
          some ((box.set i (box.getD ((box.getD i 0 + lastByte + kb) &&& 0xff) 0)).set
              ((box.getD i 0 + lastByte + kb) &&& 0xff) (box.getD i 0),
            (box.getD i 0 + lastByte + kb) &&& 0xff,
            if keyOffset + 1 ≥ key.length then 0 else keyOffset + 1) from by
        simp only [keyBoxStep, hkb]] at h
      refine ih _ st' (fun j hj => hmem j (List.mem_cons_of_mem _ hj)) ?_ h
      have hlen : box.length = 256 := by
        have := hp.length_eq
        simpa using this
      have hi : i < box.length := by
        rw [hlen]
        exact hmem i (List.mem_cons_self i t)
      have hc : (box.getD i 0 + lastByte + kb) &&& 0xff < box.length := by
        rw [hlen]
        have := Nat.and_le_right (n := box.getD i 0 + lastByte + kb) (m := 0xff)
        omega
      exact (set_set_perm box i _ hi hc).trans hp

theorem keyBox_foldlM_isSome (key : Bytes) (hk : key ≠ []) :
    ∀ (l : List Nat) (st : Bytes × Nat × Nat), st.2.2 < key.length →
      ∃ st', l.foldlM (keyBoxStep key) st = some st' ∧ st'.2.2 < key.length := by
  intro l
  induction l with
  | nil =>
    intro st h
    exact ⟨st, rfl, h⟩
  | cons i t ih =>
    intro st hoff
    obtain ⟨box, lastByte, keyOffset⟩ := st
    have hoff' : keyOffset < key.length := hoff
    have hlen : 0 < key.length := List.length_pos.mpr hk
    have hkb : key.get? keyOffset = some (key.get ⟨keyOffset, hoff'⟩) :=
      List.get?_eq_get hoff'
    have hstep : keyBoxStep key (box, lastByte, keyOffset) i =
        some ((box.set i (box.getD ((box.getD i 0 + lastByte +
              key.get ⟨keyOffset, hoff'⟩) &&& 0xff) 0)).set
            ((box.getD i 0 + lastByte + key.get ⟨keyOffset, hoff'⟩) &&& 0xff)
            (box.getD i 0),
          (box.getD i 0 + lastByte + key.get ⟨keyOffset, hoff'⟩) &&& 0xff,
          if keyOffset + 1 ≥ key.length then 0 else keyOffset + 1) := by
      simp only [keyBoxStep, hkb]
    have hoff2 : (if keyOffset + 1 ≥ key.length then 0 else keyOffset + 1) <
        key.length := by
      split <;> omega
    obtain ⟨st', h1, h2⟩ := ih ((box.set i (box.getD ((box.getD i 0 + lastByte +
        key.get ⟨keyOffset, hoff'⟩) &&& 0xff) 0)).set
          ((box.getD i 0 + lastByte + key.get ⟨keyOffset, hoff'⟩) &&& 0xff)
          (box.getD i 0),
        (box.getD i 0 + lastByte + key.get ⟨keyOffset, hoff'⟩) &&& 0xff,
        if keyOffset + 1 ≥ key.length then 0 else keyOffset + 1) hoff2
    refine ⟨st', ?_, h2⟩
    rw [List.foldlM_cons, hstep]
    exact h1

theorem deriveKeyBox_perm (key : Bytes) (hk : key ≠ []) :
    ∃ box, deriveKeyBox key = some box ∧ box.Perm (List.range 256) := by
  have hlen : 0 < key.length := List.length_pos.mpr hk
  obtain ⟨st', h1, _⟩ := keyBox_foldlM_isSome key hk (List.range 256)
    ((List.range 256), 0, 0)
    (show ((List.range 256 : List Nat), 0, 0).2.2 < key.length from hlen)
  refine ⟨st'.1, ?_, ?_⟩
  · unfold deriveKeyBox
    rw [h1]
    rfl
  · exact keyBox_foldlM_perm key (List.range 256) _ st'
      (fun i hi => List.mem_range.mp hi) (List.Perm.refl _) h1

theorem xor_xor_cancel (a m : Nat) : (a ^^^ m) ^^^ a = m := by
  rw [Nat.xor_comm a m, Nat.xor_assoc, Nat.xor_self, Nat.xor_zero]

/-! ## The claims -/

/-- **C1**: for every key box and every ciphertext chunk the decoder returns
a chunk of identical length in which the byte at 1-based position `i` is the
input byte XORed with `box[(box[j] + box[(box[j] + j) & 0xff]) & 0xff]`,
`j = i & 0xff`; and in the streaming loop the position counter restarts at 1
for every chunk: the mask at global offset `n` is the mask of local position
`n % 0x8000 + 1`, independent of the cumulative offset. -/
theorem c1_chunk_decoder_correct (box chunk : Bytes) :
    (decodeChunk box chunk).length = chunk.length ∧
    (∀ i, 1 ≤ i → i ≤ chunk.length →
      (decodeChunk box chunk).getD (i - 1) 0 =
        chunk.getD (i - 1) 0 ^^^
          box.getD ((box.getD (i &&& 0xff) 0 +
            box.getD ((box.getD (i &&& 0xff) 0 + (i &&& 0xff)) &&& 0xff) 0) &&&
              0xff) 0) ∧
    (∀ data n, n < data.length →
      (decodeStream box 0x8000 data).getD n 0 =
        data.getD n 0 ^^^ maskAt box (n % 0x8000 + 1)) := by
  refine ⟨decodeChunk_length box chunk, ?_, ?_⟩
  · intro i h1 h2
    have hidx : i - 1 < chunk.length := by omega
    have hmain := decodeChunk_getD box chunk (i - 1) hidx
    rw [show i - 1 + 1 = i from by omega] at hmain
    exact hmain
  · intro data n hn
    exact decodeStream_getD box 0x8000 data n (by norm_num) hn

/-- Witness for `c1_chunk_decoder_correct` at a concrete box and chunk. -/
theorem c1_chunk_decoder_correct_witness :
    (decodeChunk (List.range 256) [5, 5, 5]).length = 3 ∧
    (decodeStream (List.range 256) 0x8000 [5, 5, 5]).getD 0 0 =
      (5 : Nat) ^^^ maskAt (List.range 256) (0 % 0x8000 + 1) :=
  ⟨(c1_chunk_decoder_correct (List.range 256) [5, 5, 5]).1,
   (c1_chunk_decoder_correct (List.range 256) [5, 5, 5]).2.2 [5, 5, 5] 0
     (by decide)⟩

/-- **C2**: for every non-empty raw key the derivation succeeds and its
256-entry table is a permutation of `0..255`; equivalently, sorting the
table yields `[0, 1, ..., 255]`. -/
theorem c2_keybox_is_permutation (key : Bytes) (hk : key ≠ []) :
    ∃ box, deriveKeyBox key = some box ∧ box.Perm (List.range 256) ∧
      box.mergeSort = List.range 256 := by
  obtain ⟨box, h1, h2⟩ := deriveKeyBox_perm key hk
  exact ⟨box, h1, h2,
    List.eq_of_perm_of_sorted ((List.mergeSort_perm box _).trans h2)
      (List.sorted_mergeSort' box) (List.sorted_le_range 256)⟩

/-- Witness for `c2_keybox_is_permutation` at the raw key `[1, 2, 3, 4]`. -/
theorem c2_keybox_is_permutation_witness :
    ∃ box, deriveKeyBox [1, 2, 3, 4] = some box ∧
      box.Perm (List.range 256) ∧ box.mergeSort = List.range 256 :=
  c2_keybox_is_permutation [1, 2, 3, 4] (by decide)

/-- **C3**: the raw cipher key is obtained by XORing the key block with
`0x64`, AES-ECB-decrypting with the fixed core key, removing the trailing
padding counted by the last decrypted byte, and discarding the first 17
bytes of what remains. -/
theorem c3_raw_key_pipeline (ext : Ext) (keyBlock dec : Bytes) (p : Nat)
    (haes : ext.aesDecrypt coreKey (keyBlock.map (fun b => b ^^^ 0x64)) =
      some dec)
    (hlast : dec.getLast? = some p) (hp0 : 0 < p) (_hple : p ≤ dec.length) :
    unwrapKeyBlock ext keyBlock =
      Except.ok ((dec.take (dec.length - p)).drop 17) := by
  have hunpad : unpad dec = some (dec.take (dec.length - p)) := by
    simp only [unpad, hlast]
    rw [if_neg (by omega)]
  simp only [unwrapKeyBlock, haes, hunpad]

/-- Witness for `c3_raw_key_pipeline` at a concrete key block. -/
theorem c3_raw_key_pipeline_witness :
    unwrapKeyBlock extXor [0x65, 0x64, 0x66] =
      Except.ok ((([1, 0, 2] : Bytes).take (([1, 0, 2] : Bytes).length - 2)).drop 17) :=
  c3_raw_key_pipeline extXor [0x65, 0x64, 0x66] [1, 0, 2] 2 rfl rfl
    (by decide) (by decide)

/-- **C4 counterexample**: a key block whose decrypted last byte is 0.  Key
unwrapping does *not* fail: it returns the value `Except.ok []` (Python's
`s[0:-0]` is the empty slice, and `[17:]` of it is again empty), refuting
the claim that unwrapping fails rather than returning a value. -/
theorem c4_counterexample :
    extXor.aesDecrypt coreKey
        (([0x64, 0x64, 0x64] : Bytes).map (fun b => b ^^^ 0x64)) =
      some [0, 0, 0] ∧
    ([0, 0, 0] : Bytes).getLast? = some 0 ∧
    unwrapKeyBlock extXor [0x64, 0x64, 0x64] = Except.ok [] :=
  ⟨rfl, rfl, rfl⟩

/-- **C4 (amended)**: when the decrypted last byte `p` is zero or exceeds
the buffer length, `unpad` silently returns the empty byte string, so key
unwrapping returns an empty raw key instead of raising; the failure only
surfaces afterwards, because the key-box derivation on an empty key raises
`IndexError` (`deriveKeyBox [] = none`). -/
theorem c4_amended (ext : Ext) (keyBlock dec : Bytes) (p : Nat)
    (haes : ext.aesDecrypt coreKey (keyBlock.map (fun b => b ^^^ 0x64)) =
      some dec)
    (hlast : dec.getLast? = some p) (hp : p = 0 ∨ dec.length < p) :
    unwrapKeyBlock ext keyBlock = Except.ok [] ∧
      deriveKeyBox [] = none := by
  refine ⟨?_, by decide⟩
  have hunpad : unpad dec = some [] := by
    simp only [unpad, hlast]
    rcases hp with h | h
    · rw [if_pos h]
    · rw [if_neg (by omega), show dec.length - p = 0 from by omega,
        List.take_zero]
  simp only [unwrapKeyBlock, haes, hunpad]
  rfl

/-- Witness for `c4_amended` at a concrete key block with padding byte 0. -/
theorem c4_amended_witness :
    unwrapKeyBlock extXor [0x64, 0x64, 0x64] = Except.ok [] ∧
      deriveKeyBox [] = none :=
  c4_amended extXor [0x64, 0x64, 0x64] [0, 0, 0] 0 rfl rfl (Or.inl rfl)

/-- **C5 counterexample**: a two-file batch whose first file has a bad
magic.  The second file on its own converts fine, but the batch stops at
the first file's error: file-level errors are *not* caught at the per-file
boundary, so a failing sibling prevents later files from being processed. -/
theorem c5_counterexample :
    dumpSingleFile extXor goodFile =
      Except.ok ⟨[109, 112, 51], [7, 7, 7, 7, 7, 7, 7, 7, 7, 7], [173, 177]⟩ ∧
    processFiles extXor [badFile, goodFile] = Except.error Err.assertFailed :=
  ⟨rfl, rfl⟩

/-- **C5 (amended)**: an error in one file's conversion propagates out of
`dump_single_file` (which catches only `KeyboardInterrupt`) and terminates
the single-worker batch, so sibling files after it are never processed. -/
theorem c5_amended (ext : Ext) (f : Bytes) (rest : List Bytes) (e : Err)
    (h : dumpSingleFile ext f = Except.error e) :
    processFiles ext (f :: rest) = Except.error e := by
  unfold processFiles
  rw [List.mapM_cons, h]
  rfl

/-- Witness for `c5_amended` at the concrete bad-magic file. -/
theorem c5_amended_witness :
    processFiles extXor [badFile] = Except.error Err.assertFailed :=
  c5_amended extXor badFile [] Err.assertFailed rfl

/-- **C6 counterexample**: in `truncFile` the cover-image length field
(bytes 76-79) declares 100 bytes while only 3 bytes remain, yet parsing
does not fail at all: it succeeds with the 3 remaining bytes as the image
and an empty audio payload.  (`f.read(n)` silently returns fewer bytes,
and no error of a `TruncatedContainer` kind exists in the code.) -/
theorem c6_counterexample :
    truncFile.drop 76 = [100, 0, 0, 0, 9, 9, 9] ∧
    dumpSingleFile extXor truncFile =
      Except.ok ⟨[109, 112, 51], [9, 9, 9], []⟩ :=
  ⟨rfl, rfl⟩

/-- **C6 (amended)**: the parser performs no length-vs-remaining check: a
read returns `min n remaining` bytes; a data block whose length field
exceeds the remaining bytes is silently read short (and parsing can
succeed, as on `truncFile`); only a length *field* itself cut short fails,
with a `struct.error` from `struct.unpack`, not a dedicated truncation
error. -/
theorem c6_amended :
    (∀ (r : Reader) (n : Nat),
      (rread r n).1.length = min n (r.data.length - r.pos)) ∧
    dumpSingleFile extXor truncFile =
      Except.ok ⟨[109, 112, 51], [9, 9, 9], []⟩ ∧
    dumpSingleFile extXor shortLenFile = Except.error Err.structError := by
  refine ⟨?_, rfl, rfl⟩
  intro r n
  simp [rread]

/-- **C7**: a file whose first 8 bytes differ from `CTENFDAM` fails the
magic assertion; the conversion returns an error and never produces a
result (so no output file is written). -/
theorem c7_bad_magic_fails (ext : Ext) (file : Bytes)
    (h : file.take 8 ≠ magicBytes) :
    dumpSingleFile ext file = Except.error Err.assertFailed := by
  unfold dumpSingleFile
  simp only [rread, List.drop_zero]
  rw [if_neg h]
  rfl

/-- Witness for `c7_bad_magic_fails` at the concrete bad-magic file. -/
theorem c7_bad_magic_fails_witness :
    dumpSingleFile extXor badFile = Except.error Err.assertFailed :=
  c7_bad_magic_fails extXor badFile (by decide)

/-- **C8**: for the key box derived from the raw key `[1, 2, 3, 4]` and a
6-byte ciphertext of zeros, decoding with chunk size 4 differs from
decoding with chunk size 32768, because the position counter resets to 1
at each chunk boundary. -/
theorem c8_chunk_boundaries_matter :
    decodeStream ((deriveKeyBox [1, 2, 3, 4]).getD []) 4 [0, 0, 0, 0, 0, 0] ≠
      decodeStream ((deriveKeyBox [1, 2, 3, 4]).getD []) 32768
        [0, 0, 0, 0, 0, 0] := by
  decide

/-- **C9 counterexample**: the concrete event trace of the muxer bridge.
Every event on the audio channel (channel 1) occurs strictly after the
image channel (channel 0) has been fully written *and closed*: the two
blobs are written sequentially by the main thread, not concurrently by two
independent writers. -/
theorem c9_counterexample :
    mergeAudioWithCover [1, 2, 3] [4, 5] =
      [MuxEvent.createPipe 0, MuxEvent.createPipe 1, MuxEvent.launchProc,
       MuxEvent.connectPipe 0, MuxEvent.writePipe 0 [4, 5],
       MuxEvent.closeHandle 0, MuxEvent.connectPipe 1,
       MuxEvent.writePipe 1 [1, 2, 3], MuxEvent.closeHandle 1,
       MuxEvent.waitProc, MuxEvent.closeHandle 0, MuxEvent.closeHandle 1] := by
  decide

/-- **C9 (amended)**: after launching the external process the bridge is
sequential: it connects, fully writes and closes the image pipe, only then
connects and writes the audio pipe, and waits for the process after both
writes; the `finally` block closes the handles again at the end. -/
theorem c9_amended (blobAudio blobCoverImg : Bytes) :
    ∃ wImg wAud : List MuxEvent,
      mergeAudioWithCover blobAudio blobCoverImg =
        [MuxEvent.createPipe 0, MuxEvent.createPipe 1, MuxEvent.launchProc,
         MuxEvent.connectPipe 0] ++ wImg ++
        [MuxEvent.closeHandle 0, MuxEvent.connectPipe 1] ++ wAud ++
        [MuxEvent.closeHandle 1, MuxEvent.waitProc, MuxEvent.closeHandle 0,
         MuxEvent.closeHandle 1] ∧
      (∀ e ∈ wImg, ∃ c, e = MuxEvent.writePipe 0 c) ∧
      (∀ e ∈ wAud, ∃ c, e = MuxEvent.writePipe 1 c) := by
  refine ⟨(chunksOf defaultChunkSize blobCoverImg).map
      (fun c => MuxEvent.writePipe 0 c),
    (chunksOf defaultChunkSize blobAudio).map
      (fun c => MuxEvent.writePipe 1 c), ?_, ?_, ?_⟩
  · simp [mergeAudioWithCover, connectAndWritePipe]
  · intro e he
    obtain ⟨c, _, rfl⟩ := List.mem_map.mp he
    exact ⟨c, rfl⟩
  · intro e he
    obtain ⟨c, _, rfl⟩ := List.mem_map.mp he
    exact ⟨c, rfl⟩

/-- **C10**: within one chunk the XOR mask depends only on the position
modulo 256: positions `i` and `i + 256` receive the same mask, so the
per-chunk keystream is periodic with period 256. -/
theorem c10_mask_period_256 (box chunk : Bytes) (i : Nat) (h1 : 1 ≤ i)
    (h2 : i + 256 ≤ chunk.length) :
    maskAt box (i + 256) = maskAt box i ∧
    (decodeChunk box chunk).getD (i - 1) 0 ^^^ chunk.getD (i - 1) 0 =
      (decodeChunk box chunk).getD (i + 256 - 1) 0 ^^^
        chunk.getD (i + 256 - 1) 0 := by
  refine ⟨maskAt_add_256 box i, ?_⟩
  have hi1 : i - 1 < chunk.length := by omega
  have hi2 : i + 256 - 1 < chunk.length := by omega
  rw [decodeChunk_getD box chunk (i - 1) hi1,
    decodeChunk_getD box chunk (i + 256 - 1) hi2,
    show i - 1 + 1 = i from by omega,
    show i + 256 - 1 + 1 = i + 256 from by omega, maskAt_add_256,
    xor_xor_cancel, xor_xor_cancel]

/-- Witness for `c10_mask_period_256` at the identity box and a 257-byte
chunk. -/
theorem c10_mask_period_256_witness :
    maskAt (List.range 256) (1 + 256) = maskAt (List.range 256) 1 ∧
    (decodeChunk (List.range 256) (List.replicate 257 0)).getD 0 0 ^^^
        (List.replicate 257 0).getD 0 0 =
      (decodeChunk (List.range 256) (List.replicate 257 0)).getD 256 0 ^^^
        (List.replicate 257 0).getD 256 0 :=
  c10_mask_period_256 (List.range 256) (List.replicate 257 0) 1 (by decide)
    (by simp)

end NCM
